import Mathlib

/-!
Verification of the parse → canonicalize → re-render pipeline of
`pretty-assertions-sorted` (`src/lib.rs`).

The crate's own code contributes the canonicalizer `sort_maps`, the
`SortedDebug` formatting wrapper and the `assert_eq_sorted` entry point.
The value tree `Value`, its parser `parse`, its `Debug` rendering and the
`Ord` used to compare map keys live in the external crate
`darrentsung_debug_parser`; those are modelled here from the specification
(each such definition is marked `Modelled from the spec`).
-/

/-- Modelled from the spec: the `Value` tree produced by the external
debug parser (§3 of the spec) — a tagged union over atomic terms, named
structs with ordered fields, tuples, lists, sets, and maps whose entries
are `(key, value)` pairs. -/
inductive Value where
  | Term : String → Value
  | Struct : String → List (String × Value) → Value
  | Tuple : List Value → Value
  | List : List Value → Value
  | Set : List Value → Value
  | Map : List (Value × Value) → Value

mutual

/-- Modelled from the spec: the textual (Debug) rendering of a `Value`
tree, in the nested-structure grammar of §4.1/§6 — terms render as their
literal text, structs as `Name { field: value, ... }`, tuples as
`( ... )`, lists as `[ ... ]`, sets and maps as `{ ... }`. -/
def render : Value → String
  | .Term t => t
  | .Struct n fs => n ++ " \x7b " ++ renderFields fs ++ " \x7d"
  | .Tuple vs => "(" ++ renderElems vs ++ ")"
  | .List vs => "[" ++ renderElems vs ++ "]"
  | .Set vs => "\x7b" ++ renderElems vs ++ "\x7d"
  | .Map kvs => "\x7b" ++ renderEntries kvs ++ "\x7d"

/-- Renders the comma-separated `name: value` field list of a struct. -/
def renderFields : List (String × Value) → String
  | [] => ""
  | [(n, v)] => n ++ ": " ++ render v
  | (n, v) :: rest => n ++ ": " ++ render v ++ ", " ++ renderFields rest

/-- Renders the comma-separated element list of a tuple, list or set. -/
def renderElems : List Value → String
  | [] => ""
  | [v] => render v
  | v :: rest => render v ++ ", " ++ renderElems rest

/-- Renders the comma-separated `key: value` entry list of a map. -/
def renderEntries : List (Value × Value) → String
  | [] => ""
  | [(k, v)] => render k ++ ": " ++ render v
  | (k, v) :: rest => render k ++ ": " ++ render v ++ ", " ++ renderEntries rest

end

/-- Byte-order comparison of two characters. -/
def charLe (a b : Char) : Bool := a.toNat ≤ b.toNat

/-- Lexicographic order on character lists. -/
def lexLe : List Char → List Char → Bool
  | [], _ => true
  | _ :: _, [] => false
  | a :: as, b :: bs => if a.toNat = b.toNat then lexLe as bs else charLe a b

/-- Lexicographic order on strings. -/
def strLe (a b : String) : Bool := lexLe a.toList b.toList

/-- Modelled from the spec: the total order used to compare two map
entries when sorting — the key order is lexicographic string comparison
of the serialized textual form of each entry's key subtree (§3); the
source invokes it as `a.key.cmp(&b.key)`. -/
def keyRel (a b : Value × Value) : Prop := strLe (render a.1) (render b.1) = true

instance : DecidableRel keyRel := fun _ _ =>
  inferInstanceAs (Decidable (_ = true))

/-- The sorting step of `sort_maps`'s `Map` arm: `map.values.sort_by(|a, b|
a.key.cmp(&b.key))`, with Rust's stable `sort_by` modelled by the stable
`List.insertionSort`. -/
def sortEntries (kvs : List (Value × Value)) : List (Value × Value) :=
  kvs.insertionSort keyRel

/-- The canonicalizer `sort_maps` from `src/lib.rs` lines 105–138: structs,
sets, lists and tuples recurse into their children in place; a map first
sorts its entries by comparing the entries' keys, and then recurses into
each (sorted) entry's key and value; terms are left alone. -/
def sort_maps : Value → Value
  | .Term t => .Term t
  | .Struct n fs => .Struct n (fs.attach.map (fun p => (p.1.1, sort_maps p.1.2)))
  | .Set vs => .Set (vs.attach.map (fun v => sort_maps v.1))
  | .Map kvs =>
      .Map ((sortEntries kvs).attach.map (fun p => (sort_maps p.1.1, sort_maps p.1.2)))
  | .List vs => .List (vs.attach.map (fun v => sort_maps v.1))
  | .Tuple vs => .Tuple (vs.attach.map (fun v => sort_maps v.1))
decreasing_by
  all_goals simp_wf
  all_goals try (obtain ⟨⟨a, b⟩, hp⟩ := p)
  all_goals try (obtain ⟨x, hx⟩ := v)
  all_goals try simp only [sortEntries, List.mem_insertionSort] at hp
  all_goals try (have h2 := List.sizeOf_lt_of_mem hp)
  all_goals try (have h2 := List.sizeOf_lt_of_mem hx)
  all_goals try simp at h2
  all_goals try simp
  all_goals omega

mutual

/-- Executable restatement of `sort_maps` by structural recursion: each map
entry is tagged with its canonicalized key and value before the (stable)
sort on the original keys, so that the recursion stays structural. Proved
equal to `sort_maps` in `sort_maps_eq_sortMapsE`. -/
def sortMapsE : Value → Value
  | .Term t => .Term t
  | .Struct n fs => .Struct n (sortFieldsE fs)
  | .Set vs => .Set (sortElemsE vs)
  | .Map kvs => .Map (((tagE kvs).insertionSort (fun a b => keyRel a.1 b.1)).map Prod.snd)
  | .List vs => .List (sortElemsE vs)
  | .Tuple vs => .Tuple (sortElemsE vs)

/-- Canonicalizes each struct field's value. -/
def sortFieldsE : List (String × Value) → List (String × Value)
  | [] => []
  | (n, v) :: rest => (n, sortMapsE v) :: sortFieldsE rest

/-- Canonicalizes each element of a tuple, list or set. -/
def sortElemsE : List Value → List Value
  | [] => []
  | v :: rest => sortMapsE v :: sortElemsE rest

/-- Tags each map entry with its canonicalized form. -/
def tagE : List (Value × Value) → List ((Value × Value) × (Value × Value))
  | [] => []
  | (k, v) :: rest => ((k, v), (sortMapsE k, sortMapsE v)) :: tagE rest

end

theorem sort_maps_Term (t : String) : sort_maps (.Term t) = .Term t := by
  rw [sort_maps]

theorem sort_maps_Struct (n : String) (fs : List (String × Value)) :
    sort_maps (.Struct n fs) = .Struct n (fs.map (fun p => (p.1, sort_maps p.2))) := by
  rw [sort_maps]
  exact congrArg (Value.Struct n) (List.attach_map_coe fs (fun q => (q.1, sort_maps q.2)))

theorem sort_maps_Tuple (vs : List Value) :
    sort_maps (.Tuple vs) = .Tuple (vs.map sort_maps) := by
  rw [sort_maps]
  exact congrArg Value.Tuple (List.attach_map_coe vs sort_maps)

theorem sort_maps_List (vs : List Value) :
    sort_maps (.List vs) = .List (vs.map sort_maps) := by
  rw [sort_maps]
  exact congrArg Value.List (List.attach_map_coe vs sort_maps)

theorem sort_maps_Set (vs : List Value) :
    sort_maps (.Set vs) = .Set (vs.map sort_maps) := by
  rw [sort_maps]
  exact congrArg Value.Set (List.attach_map_coe vs sort_maps)

theorem sort_maps_Map (kvs : List (Value × Value)) :
    sort_maps (.Map kvs) =
      .Map ((sortEntries kvs).map (fun p => (sort_maps p.1, sort_maps p.2))) := by
  rw [sort_maps]
  exact congrArg Value.Map
    (List.attach_map_coe (sortEntries kvs) (fun q => (sort_maps q.1, sort_maps q.2)))

/-- Structural induction over `Value` with membership-based hypotheses for
the nested lists. -/
def value_induction (P : Value → Prop)
    (hTerm : ∀ t, P (Value.Term t))
    (hStruct : ∀ n fs, (∀ p ∈ fs, P (Prod.snd p)) → P (Value.Struct n fs))
    (hTuple : ∀ vs, (∀ v ∈ vs, P v) → P (Value.Tuple vs))
    (hList : ∀ vs, (∀ v ∈ vs, P v) → P (Value.List vs))
    (hSet : ∀ vs, (∀ v ∈ vs, P v) → P (Value.Set vs))
    (hMap : ∀ kvs, (∀ p ∈ kvs, P (Prod.fst p) ∧ P (Prod.snd p)) → P (Value.Map kvs)) :
    ∀ v, P v
  | .Term t => hTerm t
  | .Struct n fs => hStruct n fs (fun p _hp =>
      value_induction P hTerm hStruct hTuple hList hSet hMap p.2)
  | .Tuple vs => hTuple vs (fun v _hv =>
      value_induction P hTerm hStruct hTuple hList hSet hMap v)
  | .List vs => hList vs (fun v _hv =>
      value_induction P hTerm hStruct hTuple hList hSet hMap v)
  | .Set vs => hSet vs (fun v _hv =>
      value_induction P hTerm hStruct hTuple hList hSet hMap v)
  | .Map kvs => hMap kvs (fun p _hp =>
      ⟨value_induction P hTerm hStruct hTuple hList hSet hMap p.1,
       value_induction P hTerm hStruct hTuple hList hSet hMap p.2⟩)
termination_by v => sizeOf v
decreasing_by
  all_goals try (have h2 := List.sizeOf_lt_of_mem _hp; obtain ⟨a, b⟩ := p)
  all_goals try (have h2 := List.sizeOf_lt_of_mem _hv)
  all_goals try simp at h2
  all_goals try simp
  all_goals omega

theorem sortFieldsE_eq (fs : List (String × Value)) :
    sortFieldsE fs = fs.map (fun p => (p.1, sortMapsE p.2)) := by
  induction fs with
  | nil => rfl
  | cons p rest ih => obtain ⟨n, v⟩ := p; simp [sortFieldsE, ih]

theorem sortElemsE_eq (vs : List Value) : sortElemsE vs = vs.map sortMapsE := by
  induction vs with
  | nil => rfl
  | cons v rest ih => simp [sortElemsE, ih]

theorem tagE_eq (kvs : List (Value × Value)) :
    tagE kvs = kvs.map (fun p => (p, (sortMapsE p.1, sortMapsE p.2))) := by
  induction kvs with
  | nil => rfl
  | cons p rest ih => obtain ⟨k, v⟩ := p; simp [tagE, ih]

theorem sort_maps_eq_sortMapsE (v : Value) : sort_maps v = sortMapsE v := by
  induction v using value_induction with
  | hTerm t => rw [sort_maps_Term]; rfl
  | hStruct n fs ih =>
      rw [sort_maps_Struct]
      show _ = Value.Struct n (sortFieldsE fs)
      rw [sortFieldsE_eq]
      exact congrArg _ (List.map_congr_left (fun p hp => by rw [ih p hp]))
  | hTuple vs ih =>
      rw [sort_maps_Tuple]
      show _ = Value.Tuple (sortElemsE vs)
      rw [sortElemsE_eq]
      exact congrArg _ (List.map_congr_left ih)
  | hList vs ih =>
      rw [sort_maps_List]
      show _ = Value.List (sortElemsE vs)
      rw [sortElemsE_eq]
      exact congrArg _ (List.map_congr_left ih)
  | hSet vs ih =>
      rw [sort_maps_Set]
      show _ = Value.Set (sortElemsE vs)
      rw [sortElemsE_eq]
      exact congrArg _ (List.map_congr_left ih)
  | hMap kvs ih =>
      rw [sort_maps_Map]
      show _ = Value.Map (((tagE kvs).insertionSort (fun a b => keyRel a.1 b.1)).map Prod.snd)
      rw [tagE_eq,
        ← List.map_insertionSort keyRel (fun a b => keyRel a.1 b.1)
          (fun p => (p, (sortMapsE p.1, sortMapsE p.2))) kvs
          (fun a _ b _ => Iff.rfl),
        List.map_map]
      refine congrArg _ (List.map_congr_left (fun p hp => ?_))
      have hp' : p ∈ kvs := (List.mem_insertionSort keyRel).mp hp

      obtain ⟨h1, h2⟩ := ih p hp'
      simp [Function.comp, h1, h2]

theorem char_eq_of_toNat_eq {a b : Char} (h : a.toNat = b.toNat) : a = b := by
  cases a; cases b
  simp only [Char.toNat] at h
  cases UInt32.toNat.inj h
  rfl

theorem string_eq_of_toList_eq {s t : String} (h : s.toList = t.toList) : s = t := by
  cases s; cases t
  simp only [String.toList] at h
  simp [h]

theorem lexLe_refl : ∀ a : List Char, lexLe a a = true
  | [] => rfl
  | a :: as => by simp [lexLe, lexLe_refl as]

theorem lexLe_total : ∀ a b : List Char, lexLe a b = true ∨ lexLe b a = true
  | [], _ => Or.inl rfl
  | _ :: _, [] => Or.inr rfl
  | a :: as, b :: bs => by
      by_cases hab : a.toNat = b.toNat
      · rcases lexLe_total as bs with h | h
        · exact Or.inl (by simp [lexLe, hab, h])
        · exact Or.inr (by simp [lexLe, hab.symm, h])
      · have hba : ¬ b.toNat = a.toNat := fun e => hab e.symm
        rcases Nat.le_total a.toNat b.toNat with h | h
        · exact Or.inl (by simp [lexLe, hab, charLe, h])
        · exact Or.inr (by simp [lexLe, hba, charLe, h])

theorem lexLe_trans :
    ∀ a b c : List Char, lexLe a b = true → lexLe b c = true → lexLe a c = true
  | [], _, _, _, _ => rfl
  | _ :: _, [], _, h, _ => by simp [lexLe] at h
  | _ :: _, _ :: _, [], _, h => by simp [lexLe] at h
  | a :: as, b :: bs, c :: cs, h1, h2 => by
      simp only [lexLe] at h1 h2 ⊢
      by_cases hab : a.toNat = b.toNat <;> by_cases hbc : b.toNat = c.toNat
      · have hac : a.toNat = c.toNat := hab.trans hbc
        simp only [hab, if_pos rfl] at h1
        simp only [hbc, if_pos rfl] at h2
        simp only [hac, if_pos rfl]
        exact lexLe_trans as bs cs h1 h2
      · have hac : ¬ a.toNat = c.toNat := hab ▸ hbc
        simp only [if_pos hab] at h1
        simp only [if_neg hbc, charLe, decide_eq_true_eq] at h2
        simp only [if_neg hac, charLe, decide_eq_true_eq]
        omega
      · have hac : ¬ a.toNat = c.toNat := fun e => hab (e.trans hbc.symm)
        simp only [if_neg hab, charLe, decide_eq_true_eq] at h1
        simp only [if_neg hac, charLe, decide_eq_true_eq]
        omega
      · simp only [if_neg hab, charLe, decide_eq_true_eq] at h1
        simp only [if_neg hbc, charLe, decide_eq_true_eq] at h2
        have hab' : a.toNat < b.toNat := Nat.lt_of_le_of_ne h1 hab
        have hbc' : b.toNat < c.toNat := Nat.lt_of_le_of_ne h2 hbc
        have hac : ¬ a.toNat = c.toNat := by omega
        simp only [if_neg hac, charLe, decide_eq_true_eq]
        omega

theorem lexLe_antisymm :
    ∀ a b : List Char, lexLe a b = true → lexLe b a = true → a = b
  | [], [], _, _ => rfl
  | [], _ :: _, _, h => by simp [lexLe] at h
  | _ :: _, [], h, _ => by simp [lexLe] at h
  | a :: as, b :: bs, h1, h2 => by
      simp only [lexLe] at h1 h2
      by_cases hab : a.toNat = b.toNat
      · simp only [hab, if_pos rfl] at h1
        simp only [hab.symm, if_pos rfl] at h2
        rw [char_eq_of_toNat_eq hab, lexLe_antisymm as bs h1 h2]
      · have hba : ¬ b.toNat = a.toNat := fun e => hab e.symm
        simp only [if_neg hab, charLe, decide_eq_true_eq] at h1
        simp only [if_neg hba, charLe, decide_eq_true_eq] at h2
        omega

theorem strLe_refl (a : String) : strLe a a = true := lexLe_refl _

theorem strLe_total (a b : String) : strLe a b = true ∨ strLe b a = true :=
  lexLe_total _ _

theorem strLe_trans {a b c : String} (h1 : strLe a b = true) (h2 : strLe b c = true) :
    strLe a c = true :=
  lexLe_trans _ _ _ h1 h2

theorem strLe_antisymm {a b : String} (h1 : strLe a b = true) (h2 : strLe b a = true) :
    a = b :=
  string_eq_of_toList_eq (lexLe_antisymm _ _ h1 h2)

instance : IsTotal (Value × Value) keyRel :=
  ⟨fun a b => strLe_total (render a.1) (render b.1)⟩

instance : IsTrans (Value × Value) keyRel :=
  ⟨fun _ _ _ h1 h2 => strLe_trans h1 h2⟩

instance : IsRefl (Value × Value) keyRel :=
  ⟨fun a => strLe_refl (render a.1)⟩

/-- Adjacent-pairs check that a map's entry list is ordered by the key
order. -/
def keysSortedB : List (Value × Value) → Bool
  | [] => true
  | [_] => true
  | a :: b :: rest => strLe (render a.1) (render b.1) && keysSortedB (b :: rest)

mutual

/-- Every `Map` node of the tree has its entries in key order. -/
def mapsSorted : Value → Bool
  | .Term _ => true
  | .Struct _ fs => mapsSortedFields fs
  | .Tuple vs => mapsSortedElems vs
  | .List vs => mapsSortedElems vs
  | .Set vs => mapsSortedElems vs
  | .Map kvs => keysSortedB kvs && mapsSortedEntries kvs

/-- `mapsSorted` over struct fields. -/
def mapsSortedFields : List (String × Value) → Bool
  | [] => true
  | (_, v) :: rest => mapsSorted v && mapsSortedFields rest

/-- `mapsSorted` over tuple, list or set elements. -/
def mapsSortedElems : List Value → Bool
  | [] => true
  | v :: rest => mapsSorted v && mapsSortedElems rest

/-- `mapsSorted` over map entries. -/
def mapsSortedEntries : List (Value × Value) → Bool
  | [] => true
  | (k, v) :: rest => mapsSorted k && mapsSorted v && mapsSortedEntries rest

end

mutual

/-- The tree contains no `Map` node at all. -/
def mapFree : Value → Bool
  | .Term _ => true
  | .Struct _ fs => mapFreeFields fs
  | .Tuple vs => mapFreeElems vs
  | .List vs => mapFreeElems vs
  | .Set vs => mapFreeElems vs
  | .Map _ => false

/-- `mapFree` over struct fields. -/
def mapFreeFields : List (String × Value) → Bool
  | [] => true
  | (_, v) :: rest => mapFree v && mapFreeFields rest

/-- `mapFree` over tuple, list or set elements. -/
def mapFreeElems : List Value → Bool
  | [] => true
  | v :: rest => mapFree v && mapFreeElems rest

end

mutual

/-- No map key anywhere in the tree contains a nested `Map`. -/
def keysMapFree : Value → Bool
  | .Term _ => true
  | .Struct _ fs => keysMapFreeFields fs
  | .Tuple vs => keysMapFreeElems vs
  | .List vs => keysMapFreeElems vs
  | .Set vs => keysMapFreeElems vs
  | .Map kvs => keysMapFreeEntries kvs

/-- `keysMapFree` over struct fields. -/
def keysMapFreeFields : List (String × Value) → Bool
  | [] => true
  | (_, v) :: rest => keysMapFree v && keysMapFreeFields rest

/-- `keysMapFree` over tuple, list or set elements. -/
def keysMapFreeElems : List Value → Bool
  | [] => true
  | v :: rest => keysMapFree v && keysMapFreeElems rest

/-- `keysMapFree` over map entries: each key is entirely map-free and each
value satisfies `keysMapFree`. -/
def keysMapFreeEntries : List (Value × Value) → Bool
  | [] => true
  | (k, v) :: rest => mapFree k && keysMapFree v && keysMapFreeEntries rest

end

/-- No two entries of the list have keys with the same rendered text. -/
def distinctKeysB : List (Value × Value) → Bool
  | [] => true
  | p :: rest => rest.all (fun q => !(render q.1 == render p.1)) && distinctKeysB rest

mutual

/-- The frame relation of the spec (§3 invariants): two trees are related
exactly when they agree on every `Term`'s text, every struct name, every
struct field name and order, every tuple, list and set element order, and
differ at most by a permutation of the entries inside `Map` nodes
(recursively). -/
inductive SameModuloMapOrder : Value → Value → Prop where
  | term (t : String) : SameModuloMapOrder (.Term t) (.Term t)
  | struct (n : String) (fs fs' : List (String × Value))
      (h : SameFields fs fs') : SameModuloMapOrder (.Struct n fs) (.Struct n fs')
  | tuple (vs vs' : List Value) (h : SameElems vs vs') :
      SameModuloMapOrder (.Tuple vs) (.Tuple vs')
  | list (vs vs' : List Value) (h : SameElems vs vs') :
      SameModuloMapOrder (.List vs) (.List vs')
  | set (vs vs' : List Value) (h : SameElems vs vs') :
      SameModuloMapOrder (.Set vs) (.Set vs')
  | map (kvs mid kvs' : List (Value × Value)) (hperm : kvs.Perm mid)
      (h : SameEntries mid kvs') : SameModuloMapOrder (.Map kvs) (.Map kvs')

/-- Pointwise `SameModuloMapOrder` on struct field lists, keeping field
names and their order. -/
inductive SameFields : List (String × Value) → List (String × Value) → Prop where
  | nil : SameFields [] []
  | cons (n : String) (v v' : Value) (rest rest' : List (String × Value))
      (hv : SameModuloMapOrder v v') (hr : SameFields rest rest') :
      SameFields ((n, v) :: rest) ((n, v') :: rest')

/-- Pointwise `SameModuloMapOrder` on element lists, keeping order. -/
inductive SameElems : List Value → List Value → Prop where
  | nil : SameElems [] []
  | cons (v v' : Value) (rest rest' : List Value)
      (hv : SameModuloMapOrder v v') (hr : SameElems rest rest') :
      SameElems (v :: rest) (v' :: rest')

/-- Pointwise `SameModuloMapOrder` on map entry lists, keeping order and
relating keys to keys and values to values. -/
inductive SameEntries : List (Value × Value) → List (Value × Value) → Prop where
  | nil : SameEntries [] []
  | cons (k v k' v' : Value) (rest rest' : List (Value × Value))
      (hk : SameModuloMapOrder k k') (hv : SameModuloMapOrder v v')
      (hr : SameEntries rest rest') :
      SameEntries ((k, v) :: rest) ((k', v') :: rest')

end

mutual

/-- Modelled from the spec: the corrected canonicalizer of §4.2/§9 — for a
map, first recurse canonicalization into each entry's key and value
subtree, and only then sort the entries by comparing the
already-canonicalized keys. Used to exhibit where the source's
sort-then-recurse order diverges from this. -/
def sort_maps_spec : Value → Value
  | .Term t => .Term t
  | .Struct n fs => .Struct n (specFields fs)
  | .Tuple vs => .Tuple (specElems vs)
  | .List vs => .List (specElems vs)
  | .Set vs => .Set (specElems vs)
  | .Map kvs => .Map ((specEntries kvs).insertionSort keyRel)

/-- `sort_maps_spec` over struct fields. -/
def specFields : List (String × Value) → List (String × Value)
  | [] => []
  | (n, v) :: rest => (n, sort_maps_spec v) :: specFields rest

/-- `sort_maps_spec` over tuple, list or set elements. -/
def specElems : List Value → List Value
  | [] => []
  | v :: rest => sort_maps_spec v :: specElems rest

/-- `sort_maps_spec` over map entries: canonicalize both components. -/
def specEntries : List (Value × Value) → List (Value × Value)
  | [] => []
  | (k, v) :: rest => (sort_maps_spec k, sort_maps_spec v) :: specEntries rest

end

theorem SameFields_of_forall (f : Value → Value) :
    ∀ fs : List (String × Value), (∀ p ∈ fs, SameModuloMapOrder p.2 (f p.2)) →
      SameFields fs (fs.map fun p => (p.1, f p.2))
  | [], _ => .nil
  | (n, v) :: rest, h => by
      exact .cons n v (f v) rest _ (h (n, v) (by simp))
        (SameFields_of_forall f rest (fun p hp => h p (by simp [hp])))

theorem SameElems_of_forall (f : Value → Value) :
    ∀ vs : List Value, (∀ v ∈ vs, SameModuloMapOrder v (f v)) →
      SameElems vs (vs.map f)
  | [], _ => .nil
  | v :: rest, h => by
      exact .cons v (f v) rest _ (h v (by simp))
        (SameElems_of_forall f rest (fun w hw => h w (by simp [hw])))

theorem SameEntries_of_forall (f : Value → Value) :
    ∀ kvs : List (Value × Value),
      (∀ p ∈ kvs, SameModuloMapOrder p.1 (f p.1) ∧ SameModuloMapOrder p.2 (f p.2)) →
      SameEntries kvs (kvs.map fun p => (f p.1, f p.2))
  | [], _ => .nil
  | (k, v) :: rest, h => by
      exact .cons k v (f k) (f v) rest _ (h (k, v) (by simp)).1 (h (k, v) (by simp)).2
        (SameEntries_of_forall f rest (fun p hp => h p (by simp [hp])))

/-- C5: for every `Value` tree, the canonicalizer changes only the order of
entries within `Map` nodes: it never alters the text of any `Term`, the
field order of any `Struct`, the element order of any `Tuple`, `List`, or
`Set`, and never adds, removes, or mutates the content of any value in the
tree. -/
theorem claim_C5 (v : Value) : SameModuloMapOrder v (sort_maps v) := by
  induction v using value_induction with
  | hTerm t => rw [sort_maps_Term]; exact .term t
  | hStruct n fs ih =>
      rw [sort_maps_Struct]
      exact .struct n fs _ (SameFields_of_forall sort_maps fs ih)
  | hTuple vs ih =>
      rw [sort_maps_Tuple]
      exact .tuple vs _ (SameElems_of_forall sort_maps vs ih)
  | hList vs ih =>
      rw [sort_maps_List]
      exact .list vs _ (SameElems_of_forall sort_maps vs ih)
  | hSet vs ih =>
      rw [sort_maps_Set]
      exact .set vs _ (SameElems_of_forall sort_maps vs ih)
  | hMap kvs ih =>
      rw [sort_maps_Map]
      refine .map kvs (sortEntries kvs) _ (List.perm_insertionSort keyRel kvs).symm ?_
      refine SameEntries_of_forall sort_maps (sortEntries kvs) (fun p hp => ?_)
      exact ih p ((List.mem_insertionSort keyRel).mp hp)

theorem mapFreeFields_iff (fs : List (String × Value)) :
    mapFreeFields fs = true ↔ ∀ p ∈ fs, mapFree p.2 = true := by
  induction fs with
  | nil => simp [mapFreeFields]
  | cons p rest ih => obtain ⟨n, v⟩ := p; simp [mapFreeFields, ih]

theorem mapFreeElems_iff (vs : List Value) :
    mapFreeElems vs = true ↔ ∀ v ∈ vs, mapFree v = true := by
  induction vs with
  | nil => simp [mapFreeElems]
  | cons v rest ih => simp [mapFreeElems, ih]

theorem keysMapFreeFields_iff (fs : List (String × Value)) :
    keysMapFreeFields fs = true ↔ ∀ p ∈ fs, keysMapFree p.2 = true := by
  induction fs with
  | nil => simp [keysMapFreeFields]
  | cons p rest ih => obtain ⟨n, v⟩ := p; simp [keysMapFreeFields, ih]

theorem keysMapFreeElems_iff (vs : List Value) :
    keysMapFreeElems vs = true ↔ ∀ v ∈ vs, keysMapFree v = true := by
  induction vs with
  | nil => simp [keysMapFreeElems]
  | cons v rest ih => simp [keysMapFreeElems, ih]

theorem keysMapFreeEntries_iff (kvs : List (Value × Value)) :
    keysMapFreeEntries kvs = true ↔
      ∀ p ∈ kvs, mapFree p.1 = true ∧ keysMapFree p.2 = true := by
  induction kvs with
  | nil => simp [keysMapFreeEntries]
  | cons p rest ih => obtain ⟨k, v⟩ := p; simp [keysMapFreeEntries, ih]

theorem mapsSortedFields_iff (fs : List (String × Value)) :
    mapsSortedFields fs = true ↔ ∀ p ∈ fs, mapsSorted p.2 = true := by
  induction fs with
  | nil => simp [mapsSortedFields]
  | cons p rest ih => obtain ⟨n, v⟩ := p; simp [mapsSortedFields, ih]

theorem mapsSortedElems_iff (vs : List Value) :
    mapsSortedElems vs = true ↔ ∀ v ∈ vs, mapsSorted v = true := by
  induction vs with
  | nil => simp [mapsSortedElems]
  | cons v rest ih => simp [mapsSortedElems, ih]

theorem mapsSortedEntries_iff (kvs : List (Value × Value)) :
    mapsSortedEntries kvs = true ↔
      ∀ p ∈ kvs, mapsSorted p.1 = true ∧ mapsSorted p.2 = true := by
  induction kvs with
  | nil => simp [mapsSortedEntries]
  | cons p rest ih => obtain ⟨k, v⟩ := p; simp [mapsSortedEntries, ih]

theorem sortMapsE_of_mapFree (v : Value) (h : mapFree v = true) : sortMapsE v = v := by
  induction v using value_induction with
  | hTerm t => rfl
  | hStruct n fs ih =>
      show Value.Struct n (sortFieldsE fs) = _
      rw [sortFieldsE_eq]
      have hf := (mapFreeFields_iff fs).mp h
      have : fs.map (fun p => (p.1, sortMapsE p.2)) = fs.map id :=
        List.map_congr_left (fun p hp => by rw [ih p hp (hf p hp)]; rfl)
      simp [this]
  | hTuple vs ih =>
      show Value.Tuple (sortElemsE vs) = _
      rw [sortElemsE_eq]
      have hf := (mapFreeElems_iff vs).mp h
      have : vs.map sortMapsE = vs.map id :=
        List.map_congr_left (fun w hw => by rw [ih w hw (hf w hw)]; rfl)
      simp [this]
  | hList vs ih =>
      show Value.List (sortElemsE vs) = _
      rw [sortElemsE_eq]
      have hf := (mapFreeElems_iff vs).mp h
      have : vs.map sortMapsE = vs.map id :=
        List.map_congr_left (fun w hw => by rw [ih w hw (hf w hw)]; rfl)
      simp [this]
  | hSet vs ih =>
      show Value.Set (sortElemsE vs) = _
      rw [sortElemsE_eq]
      have hf := (mapFreeElems_iff vs).mp h
      have : vs.map sortMapsE = vs.map id :=
        List.map_congr_left (fun w hw => by rw [ih w hw (hf w hw)]; rfl)
      simp [this]
  | hMap kvs ih => simp [mapFree] at h

theorem mapsSorted_of_mapFree (v : Value) (h : mapFree v = true) : mapsSorted v = true := by
  induction v using value_induction with
  | hTerm t => rfl
  | hStruct n fs ih =>
      have hf := (mapFreeFields_iff fs).mp h
      show mapsSortedFields fs = true
      exact (mapsSortedFields_iff fs).mpr (fun p hp => ih p hp (hf p hp))
  | hTuple vs ih =>
      have hf := (mapFreeElems_iff vs).mp h
      show mapsSortedElems vs = true
      exact (mapsSortedElems_iff vs).mpr (fun w hw => ih w hw (hf w hw))
  | hList vs ih =>
      have hf := (mapFreeElems_iff vs).mp h
      show mapsSortedElems vs = true
      exact (mapsSortedElems_iff vs).mpr (fun w hw => ih w hw (hf w hw))
  | hSet vs ih =>
      have hf := (mapFreeElems_iff vs).mp h
      show mapsSortedElems vs = true
      exact (mapsSortedElems_iff vs).mpr (fun w hw => ih w hw (hf w hw))
  | hMap kvs ih => simp [mapFree] at h

theorem sortMapsE_Map (kvs : List (Value × Value)) :
    sortMapsE (.Map kvs) =
      .Map ((sortEntries kvs).map (fun p => (sortMapsE p.1, sortMapsE p.2))) := by
  rw [← sort_maps_eq_sortMapsE, sort_maps_Map]
  refine congrArg _ (List.map_congr_left (fun p _ => ?_))
  rw [sort_maps_eq_sortMapsE, sort_maps_eq_sortMapsE]

theorem keysSortedB_of_pairwise :
    ∀ l : List (Value × Value), List.Pairwise keyRel l → keysSortedB l = true
  | [], _ => rfl
  | [_], _ => rfl
  | a :: b :: rest, h => by
      have h1 : keyRel a b := (List.pairwise_cons.mp h).1 b (by simp)
      have h2 := (List.pairwise_cons.mp h).2
      simp only [keysSortedB, keysSortedB_of_pairwise (b :: rest) h2, Bool.and_true]
      exact h1

theorem keysSortedB_map (f : Value × Value → Value × Value) :
    ∀ l : List (Value × Value), (∀ p ∈ l, render (f p).1 = render p.1) →
      keysSortedB (l.map f) = keysSortedB l
  | [], _ => rfl
  | [_], _ => rfl
  | a :: b :: rest, h => by
      have hrest := keysSortedB_map f (b :: rest) (fun p hp => h p (List.mem_cons_of_mem a hp))
      simp only [List.map] at hrest ⊢
      simp only [keysSortedB, hrest, h a (by simp), h b (by simp)]

theorem mapsSorted_sortMapsE_of_keysMapFree (v : Value) (h : keysMapFree v = true) :
    mapsSorted (sortMapsE v) = true := by
  induction v using value_induction with
  | hTerm t => rfl
  | hStruct n fs ih =>
      have hf := (keysMapFreeFields_iff fs).mp h
      show mapsSortedFields (sortFieldsE fs) = true
      rw [sortFieldsE_eq]
      refine (mapsSortedFields_iff _).mpr (fun p hp => ?_)
      obtain ⟨q, hq, rfl⟩ := List.mem_map.mp hp
      exact ih q hq (hf q hq)
  | hTuple vs ih =>
      have hf := (keysMapFreeElems_iff vs).mp h
      show mapsSortedElems (sortElemsE vs) = true
      rw [sortElemsE_eq]
      refine (mapsSortedElems_iff _).mpr (fun w hw => ?_)
      obtain ⟨q, hq, rfl⟩ := List.mem_map.mp hw
      exact ih q hq (hf q hq)
  | hList vs ih =>
      have hf := (keysMapFreeElems_iff vs).mp h
      show mapsSortedElems (sortElemsE vs) = true
      rw [sortElemsE_eq]
      refine (mapsSortedElems_iff _).mpr (fun w hw => ?_)
      obtain ⟨q, hq, rfl⟩ := List.mem_map.mp hw
      exact ih q hq (hf q hq)
  | hSet vs ih =>
      have hf := (keysMapFreeElems_iff vs).mp h
      show mapsSortedElems (sortElemsE vs) = true
      rw [sortElemsE_eq]
      refine (mapsSortedElems_iff _).mpr (fun w hw => ?_)
      obtain ⟨q, hq, rfl⟩ := List.mem_map.mp hw
      exact ih q hq (hf q hq)
  | hMap kvs ih =>
      have hkv := (keysMapFreeEntries_iff kvs).mp h
      rw [sortMapsE_Map]
      have hkeyfix : ∀ p ∈ sortEntries kvs, sortMapsE p.1 = p.1 := fun p hp =>
        sortMapsE_of_mapFree p.1 (hkv p ((List.mem_insertionSort keyRel).mp hp)).1
      show (keysSortedB _ && mapsSortedEntries _) = true
      rw [Bool.and_eq_true]
      constructor
      · rw [keysSortedB_map _ (sortEntries kvs) (fun p hp => by rw [hkeyfix p hp])]
        exact keysSortedB_of_pairwise (sortEntries kvs)
          (List.sorted_insertionSort keyRel kvs)
      · refine (mapsSortedEntries_iff _).mpr (fun p hp => ?_)
        obtain ⟨q, hq, rfl⟩ := List.mem_map.mp hp
        have hqkvs := (List.mem_insertionSort keyRel).mp hq
        refine ⟨?_, (ih q hqkvs).2 (hkv q hqkvs).2⟩
        rw [hkeyfix q hq]
        exact mapsSorted_of_mapFree q.1 (hkv q hqkvs).1

/-- The nested-map-key example: a map whose two keys are themselves maps,
`{2: true, 1: true}` and `{1: true, 3: true}`. -/
def nestedKeyMap : Value :=
  .Map [(.Map [(.Term "2", .Term "true"), (.Term "1", .Term "true")], .Term "A"),
        (.Map [(.Term "1", .Term "true"), (.Term "3", .Term "true")], .Term "B")]

/-- The flat three-entry map `{2: true, 1: true, 20: true}` of the spec's
concrete permutation-invariance example. -/
def flatMap120 : Value :=
  .Map [(.Term "2", .Term "true"), (.Term "1", .Term "true"), (.Term "20", .Term "true")]

/-- C1 (counterexample): on a map whose keys are themselves maps, the
canonicalizer's output is not ordered by the (final) keys, because the
source sorts the entries before canonicalizing the keys. -/
theorem claim_C1_counterexample : mapsSorted (sort_maps nestedKeyMap) = false := by
  rw [sort_maps_eq_sortMapsE]
  decide

/-- C1 (amended): the canonicalizer reorders the entries of every `Map`
node by the total key order as the keys stand when the map is reached; on
every tree in which no map key contains a nested `Map`, every `Map` node of
the output is ordered by the total order over the entries' keys. -/
theorem claim_C1 (v : Value) (h : keysMapFree v = true) :
    mapsSorted (sort_maps v) = true := by
  rw [sort_maps_eq_sortMapsE]
  exact mapsSorted_sortMapsE_of_keysMapFree v h

/-- C1 (witness): the amended theorem applied to the concrete map
`{2: true, 1: true, 20: true}`. -/
theorem claim_C1_witness :
    keysMapFree flatMap120 = true ∧ mapsSorted (sort_maps flatMap120) = true :=
  ⟨by decide, claim_C1 flatMap120 (by decide)⟩

theorem keysMapFree_sortMapsE (v : Value) (h : keysMapFree v = true) :
    keysMapFree (sortMapsE v) = true := by
  induction v using value_induction with
  | hTerm t => rfl
  | hStruct n fs ih =>
      have hf := (keysMapFreeFields_iff fs).mp h
      show keysMapFreeFields (sortFieldsE fs) = true
      rw [sortFieldsE_eq]
      refine (keysMapFreeFields_iff _).mpr (fun p hp => ?_)
      obtain ⟨q, hq, rfl⟩ := List.mem_map.mp hp
      exact ih q hq (hf q hq)
  | hTuple vs ih =>
      have hf := (keysMapFreeElems_iff vs).mp h
      show keysMapFreeElems (sortElemsE vs) = true
      rw [sortElemsE_eq]
      refine (keysMapFreeElems_iff _).mpr (fun w hw => ?_)
      obtain ⟨q, hq, rfl⟩ := List.mem_map.mp hw
      exact ih q hq (hf q hq)
  | hList vs ih =>
      have hf := (keysMapFreeElems_iff vs).mp h
      show keysMapFreeElems (sortElemsE vs) = true
      rw [sortElemsE_eq]
      refine (keysMapFreeElems_iff _).mpr (fun w hw => ?_)
      obtain ⟨q, hq, rfl⟩ := List.mem_map.mp hw
      exact ih q hq (hf q hq)
  | hSet vs ih =>
      have hf := (keysMapFreeElems_iff vs).mp h
      show keysMapFreeElems (sortElemsE vs) = true
      rw [sortElemsE_eq]
      refine (keysMapFreeElems_iff _).mpr (fun w hw => ?_)
      obtain ⟨q, hq, rfl⟩ := List.mem_map.mp hw
      exact ih q hq (hf q hq)
  | hMap kvs ih =>
      have hkv := (keysMapFreeEntries_iff kvs).mp h
      rw [sortMapsE_Map]
      show keysMapFreeEntries _ = true
      refine (keysMapFreeEntries_iff _).mpr (fun p hp => ?_)
      obtain ⟨q, hq, rfl⟩ := List.mem_map.mp hp
      have hqkvs := (List.mem_insertionSort keyRel).mp hq
      constructor
      · rw [sortMapsE_of_mapFree q.1 (hkv q hqkvs).1]
        exact (hkv q hqkvs).1
      · exact (ih q hqkvs).2 (hkv q hqkvs).2

theorem sortMapsE_idem (v : Value) (h : keysMapFree v = true) :
    sortMapsE (sortMapsE v) = sortMapsE v := by
  induction v using value_induction with
  | hTerm t => rfl
  | hStruct n fs ih =>
      have hf := (keysMapFreeFields_iff fs).mp h
      show Value.Struct n (sortFieldsE (sortFieldsE fs)) = Value.Struct n (sortFieldsE fs)
      rw [sortFieldsE_eq, sortFieldsE_eq, List.map_map]
      refine congrArg _ (List.map_congr_left (fun p hp => ?_))
      simp only [Function.comp]
      rw [ih p hp (hf p hp)]
  | hTuple vs ih =>
      have hf := (keysMapFreeElems_iff vs).mp h
      show Value.Tuple (sortElemsE (sortElemsE vs)) = Value.Tuple (sortElemsE vs)
      rw [sortElemsE_eq, sortElemsE_eq, List.map_map]
      refine congrArg _ (List.map_congr_left (fun w hw => ?_))
      simp only [Function.comp]
      rw [ih w hw (hf w hw)]
  | hList vs ih =>
      have hf := (keysMapFreeElems_iff vs).mp h
      show Value.List (sortElemsE (sortElemsE vs)) = Value.List (sortElemsE vs)
      rw [sortElemsE_eq, sortElemsE_eq, List.map_map]
      refine congrArg _ (List.map_congr_left (fun w hw => ?_))
      simp only [Function.comp]
      rw [ih w hw (hf w hw)]
  | hSet vs ih =>
      have hf := (keysMapFreeElems_iff vs).mp h
      show Value.Set (sortElemsE (sortElemsE vs)) = Value.Set (sortElemsE vs)
      rw [sortElemsE_eq, sortElemsE_eq, List.map_map]
      refine congrArg _ (List.map_congr_left (fun w hw => ?_))
      simp only [Function.comp]
      rw [ih w hw (hf w hw)]
  | hMap kvs ih =>
      have hkv := (keysMapFreeEntries_iff kvs).mp h
      have hkeyfix : ∀ p ∈ sortEntries kvs, sortMapsE p.1 = p.1 := fun p hp =>
        sortMapsE_of_mapFree p.1 (hkv p ((List.mem_insertionSort keyRel).mp hp)).1
      rw [sortMapsE_Map, sortMapsE_Map]
      have hpair : List.Pairwise keyRel
          ((sortEntries kvs).map (fun p => (sortMapsE p.1, sortMapsE p.2))) := by
        rw [List.pairwise_map]
        refine (List.sorted_insertionSort keyRel kvs).imp_of_mem (fun ha hb hr => ?_)
        show strLe _ _ = true
        rw [hkeyfix _ ha, hkeyfix _ hb]
        exact hr
      have hsorted : sortEntries ((sortEntries kvs).map
          (fun p => (sortMapsE p.1, sortMapsE p.2))) =
          (sortEntries kvs).map (fun p => (sortMapsE p.1, sortMapsE p.2)) :=
        List.Sorted.insertionSort_eq hpair
      rw [hsorted, List.map_map]
      refine congrArg _ (List.map_congr_left (fun p hp => ?_))
      have hpkvs := (List.mem_insertionSort keyRel).mp hp
      simp only [Function.comp]
      rw [hkeyfix p hp, hkeyfix p hp, (ih p hpkvs).2 (hkv p hpkvs).2]

/-- C4 (counterexample): on a map whose keys are themselves maps, applying
`sort_maps` twice re-renders differently from applying it once — the first
pass sorts by the not-yet-canonicalized keys, the second pass re-sorts by
the canonicalized keys. -/
theorem claim_C4_counterexample :
    render (sort_maps (sort_maps nestedKeyMap)) ≠ render (sort_maps nestedKeyMap) := by
  simp only [sort_maps_eq_sortMapsE]
  decide

/-- C4 (amended): the canonicalizer is idempotent on every tree in which no
map key contains a nested `Map` — applying `sort_maps` twice produces a
tree structurally equal (hence rendering identically) to applying it once.
In general a second application can reorder a map whose keys were
canonicalized only after that map's entries were sorted. -/
theorem claim_C4 (v : Value) (h : keysMapFree v = true) :
    sort_maps (sort_maps v) = sort_maps v := by
  simp only [sort_maps_eq_sortMapsE]
  exact sortMapsE_idem v h

/-- C4 (witness): idempotence at the concrete map `{2: true, 1: true,
20: true}`. -/
theorem claim_C4_witness :
    keysMapFree flatMap120 = true ∧
      sort_maps (sort_maps flatMap120) = sort_maps flatMap120 :=
  ⟨by decide, claim_C4 flatMap120 (by decide)⟩

/-- C2: the source's `Map` arm sorts the entries first and only then
recurses into each entry's key and value — the opposite of the claimed
recurse-then-sort order. On the concrete map whose keys are themselves
maps, the code (`sort_maps`) keeps the entry with canonical key
`{1: true, 3: true}` before the entry with canonical key `{1: true,
2: true}`, while the claimed order (`sort_maps_spec`, which canonicalizes
each key and value subtree before sorting) produces the two entries
sorted by their canonical keys. -/
theorem claim_C2 :
    render (sort_maps nestedKeyMap) ≠ render (sort_maps_spec nestedKeyMap) ∧
      render (sort_maps nestedKeyMap) =
        "{{1: true, 3: true}: B, {1: true, 2: true}: A}" ∧
      render (sort_maps_spec nestedKeyMap) =
        "{{1: true, 2: true}: A, {1: true, 3: true}: B}" := by
  rw [sort_maps_eq_sortMapsE]
  refine ⟨by decide, by decide, by decide⟩

mutual

/-- Every `Map` node of the tree has pairwise-distinct rendered keys. -/
def distinctKeys : Value → Bool
  | .Term _ => true
  | .Struct _ fs => distinctKeysFields fs
  | .Tuple vs => distinctKeysElems vs
  | .List vs => distinctKeysElems vs
  | .Set vs => distinctKeysElems vs
  | .Map kvs => distinctKeysB kvs && distinctKeysEntries kvs

/-- `distinctKeys` over struct fields. -/
def distinctKeysFields : List (String × Value) → Bool
  | [] => true
  | (_, v) :: rest => distinctKeys v && distinctKeysFields rest

/-- `distinctKeys` over tuple, list or set elements. -/
def distinctKeysElems : List Value → Bool
  | [] => true
  | v :: rest => distinctKeys v && distinctKeysElems rest

/-- `distinctKeys` over map entries. -/
def distinctKeysEntries : List (Value × Value) → Bool
  | [] => true
  | (k, v) :: rest => distinctKeys k && distinctKeys v && distinctKeysEntries rest

end

theorem distinctKeysFields_iff (fs : List (String × Value)) :
    distinctKeysFields fs = true ↔ ∀ p ∈ fs, distinctKeys p.2 = true := by
  induction fs with
  | nil => simp [distinctKeysFields]
  | cons p rest ih => obtain ⟨n, v⟩ := p; simp [distinctKeysFields, ih]

theorem distinctKeysElems_iff (vs : List Value) :
    distinctKeysElems vs = true ↔ ∀ v ∈ vs, distinctKeys v = true := by
  induction vs with
  | nil => simp [distinctKeysElems]
  | cons v rest ih => simp [distinctKeysElems, ih]

theorem distinctKeysEntries_iff (kvs : List (Value × Value)) :
    distinctKeysEntries kvs = true ↔
      ∀ p ∈ kvs, distinctKeys p.1 = true ∧ distinctKeys p.2 = true := by
  induction kvs with
  | nil => simp [distinctKeysEntries]
  | cons p rest ih => obtain ⟨k, v⟩ := p; simp [distinctKeysEntries, ih]

theorem distinctKeysB_iff (l : List (Value × Value)) :
    distinctKeysB l = true ↔
      List.Pairwise (fun p q : Value × Value => render p.1 ≠ render q.1) l := by
  induction l with
  | nil => simp [distinctKeysB]
  | cons p rest ih =>
      simp only [distinctKeysB, Bool.and_eq_true, List.all_eq_true, List.pairwise_cons, ih]
      constructor
      · rintro ⟨h1, h2⟩
        exact ⟨fun q hq e => by simpa [e] using h1 q hq, h2⟩
      · rintro ⟨h1, h2⟩
        exact ⟨fun q hq => by simpa using fun e => h1 q hq e.symm, h2⟩

theorem sortEntries_eq_of_perm (l l' : List (Value × Value)) (hperm : l.Perm l')
    (hd : distinctKeysB l = true) : sortEntries l = sortEntries l' := by
  have hne : List.Pairwise (fun p q : Value × Value => render p.1 ≠ render q.1) l :=
    (distinctKeysB_iff l).mp hd
  have hsym : ∀ {x y : Value × Value},
      render x.1 ≠ render y.1 → render y.1 ≠ render x.1 := fun h e => h e.symm
  have hne1 : List.Pairwise (fun p q : Value × Value => render p.1 ≠ render q.1)
      (sortEntries l) :=
    hne.perm (List.perm_insertionSort keyRel l).symm hsym
  have hne2 : List.Pairwise (fun p q : Value × Value => render p.1 ≠ render q.1)
      (sortEntries l') :=
    (hne.perm hperm hsym).perm (List.perm_insertionSort keyRel l').symm hsym
  have hp : (sortEntries l).Perm (sortEntries l') :=
    ((List.perm_insertionSort keyRel l).trans hperm).trans
      (List.perm_insertionSort keyRel l').symm
  haveI : IsAntisymm (Value × Value)
      (fun p q => keyRel p q ∧ render p.1 ≠ render q.1) :=
    ⟨fun _ _ h1 h2 => absurd (strLe_antisymm h1.1 h2.1) h1.2⟩
  exact List.eq_of_perm_of_sorted hp
    ((List.sorted_insertionSort keyRel l).and hne1)
    ((List.sorted_insertionSort keyRel l').and hne2)

theorem SameFields_eq (fs : List (String × Value)) :
    ∀ fs', SameFields fs fs' →
      (∀ p ∈ fs, ∀ y, SameModuloMapOrder p.2 y → p.2 = y) → fs = fs' := by
  induction fs with
  | nil => intro fs' h _; cases h; rfl
  | cons p rest ih =>
      intro fs' h hall
      obtain ⟨n, v⟩ := p
      cases h with
      | cons _ _ v' _ rest' hv hr =>
          have h1 : v = v' := hall (n, v) (by simp) v' hv
          rw [h1, ih rest' hr (fun q hq => hall q (by simp [hq]))]

theorem SameElems_eq (vs : List Value) :
    ∀ vs', SameElems vs vs' →
      (∀ v ∈ vs, ∀ y, SameModuloMapOrder v y → v = y) → vs = vs' := by
  induction vs with
  | nil => intro vs' h _; cases h; rfl
  | cons v rest ih =>
      intro vs' h hall
      cases h with
      | cons _ v' _ rest' hv hr =>
          have h1 : v = v' := hall v (by simp) v' hv
          rw [h1, ih rest' hr (fun w hw => hall w (by simp [hw]))]

theorem SameModuloMapOrder_eq_of_mapFree (x : Value) :
    ∀ y, SameModuloMapOrder x y → mapFree x = true → x = y := by
  induction x using value_induction with
  | hTerm t => intro y h _; cases h; rfl
  | hStruct n fs ih =>
      intro y h hmf
      cases h with
      | struct _ _ fs' hf =>
          have hmfF := (mapFreeFields_iff fs).mp hmf
          exact congrArg _ (SameFields_eq fs fs' hf
            (fun p hp z hz => ih p hp z hz (hmfF p hp)))
  | hTuple vs ih =>
      intro y h hmf
      cases h with
      | tuple _ vs' hf =>
          have hmfE := (mapFreeElems_iff vs).mp hmf
          exact congrArg _ (SameElems_eq vs vs' hf
            (fun w hw z hz => ih w hw z hz (hmfE w hw)))
  | hList vs ih =>
      intro y h hmf
      cases h with
      | list _ vs' hf =>
          have hmfE := (mapFreeElems_iff vs).mp hmf
          exact congrArg _ (SameElems_eq vs vs' hf
            (fun w hw z hz => ih w hw z hz (hmfE w hw)))
  | hSet vs ih =>
      intro y h hmf
      cases h with
      | set _ vs' hf =>
          have hmfE := (mapFreeElems_iff vs).mp hmf
          exact congrArg _ (SameElems_eq vs vs' hf
            (fun w hw z hz => ih w hw z hz (hmfE w hw)))
  | hMap kvs ih => intro y h hmf; simp [mapFree] at hmf

/-- Alignment of two map entries: structurally equal keys and
`SameModuloMapOrder`-related values. -/
def entryAligned (p q : Value × Value) : Prop :=
  p.1 = q.1 ∧ SameModuloMapOrder p.2 q.2

theorem orderedInsert_forall2 {a a' : Value × Value} {l l' : List (Value × Value)}
    (ha : entryAligned a a') (h : List.Forall₂ entryAligned l l') :
    List.Forall₂ entryAligned (l.orderedInsert keyRel a) (l'.orderedInsert keyRel a') := by
  induction h with
  | nil => exact List.Forall₂.cons ha List.Forall₂.nil
  | cons hb hrest ihr =>
      rename_i b b' lb lb'
      by_cases hc : keyRel a b
      · have hc' : keyRel a' b' := by
          unfold keyRel at hc ⊢
          rw [← ha.1, ← hb.1]
          exact hc
        rw [List.orderedInsert, List.orderedInsert, if_pos hc, if_pos hc']
        exact List.Forall₂.cons ha (List.Forall₂.cons hb hrest)
      · have hc' : ¬ keyRel a' b' := by
          unfold keyRel at hc ⊢
          rw [← ha.1, ← hb.1]
          exact hc
        rw [List.orderedInsert, List.orderedInsert, if_neg hc, if_neg hc']
        exact List.Forall₂.cons hb ihr

theorem insertionSort_forall2 {l l' : List (Value × Value)}
    (h : List.Forall₂ entryAligned l l') :
    List.Forall₂ entryAligned (l.insertionSort keyRel) (l'.insertionSort keyRel) := by
  induction h with
  | nil => exact List.Forall₂.nil
  | cons ha hrest ihr =>
      rw [List.insertionSort, List.insertionSort]
      exact orderedInsert_forall2 ha ihr

theorem SameEntries_forall2 : ∀ mid kvs' : List (Value × Value), SameEntries mid kvs' →
    (∀ p ∈ mid, mapFree p.1 = true) → List.Forall₂ entryAligned mid kvs'
  | [], _, h, _ => by cases h; exact List.Forall₂.nil
  | p :: rest, _, h, hmf => by
      obtain ⟨k, v⟩ := p
      cases h with
      | cons _ _ k' v' _ rest' hk hv hr =>
          refine List.Forall₂.cons
            ⟨SameModuloMapOrder_eq_of_mapFree k k' hk (hmf (k, v) (by simp)), hv⟩
            (SameEntries_forall2 rest rest' hr (fun q hq => hmf q (by simp [hq])))

theorem map_sortMapsE_eq_of_forall2 :
    ∀ {l l' : List (Value × Value)}, List.Forall₂ entryAligned l l' →
      (∀ p ∈ l, ∀ y, SameModuloMapOrder p.2 y → sortMapsE p.2 = sortMapsE y) →
      l.map (fun p => (sortMapsE p.1, sortMapsE p.2)) =
        l'.map (fun p => (sortMapsE p.1, sortMapsE p.2)) := by
  intro l l' h
  induction h with
  | nil => intro _; rfl
  | cons ha hrest ihr =>
      rename_i a b la lb
      intro hv
      simp only [List.map]
      rw [ha.1, hv a (by simp) b.2 ha.2, ihr (fun q hq y hy => hv q (by simp [hq]) y hy)]

theorem SameFields_map_eq : ∀ fs fs' : List (String × Value), SameFields fs fs' →
    (∀ p ∈ fs, ∀ y, SameModuloMapOrder p.2 y → sortMapsE p.2 = sortMapsE y) →
    fs.map (fun p => (p.1, sortMapsE p.2)) = fs'.map (fun p => (p.1, sortMapsE p.2))
  | [], _, h, _ => by cases h; rfl
  | p :: rest, _, h, hall => by
      obtain ⟨n, v⟩ := p
      cases h with
      | cons _ _ v' _ rest' hv hr =>
          simp only [List.map]
          rw [hall (n, v) (by simp) v' hv,
            SameFields_map_eq rest rest' hr (fun q hq => hall q (by simp [hq]))]

theorem SameElems_map_eq : ∀ vs vs' : List Value, SameElems vs vs' →
    (∀ v ∈ vs, ∀ y, SameModuloMapOrder v y → sortMapsE v = sortMapsE y) →
    vs.map sortMapsE = vs'.map sortMapsE
  | [], _, h, _ => by cases h; rfl
  | v :: rest, _, h, hall => by
      cases h with
      | cons _ v' _ rest' hv hr =>
          simp only [List.map]
          rw [hall v (by simp) v' hv,
            SameElems_map_eq rest rest' hr (fun w hw => hall w (by simp [hw]))]

theorem sortMapsE_congr (a : Value) :
    ∀ b, SameModuloMapOrder a b → keysMapFree a = true → distinctKeys a = true →
      sortMapsE a = sortMapsE b := by
  induction a using value_induction with
  | hTerm t => intro b h _ _; cases h; rfl
  | hStruct n fs ih =>
      intro b h hk hd
      cases h with
      | struct _ _ fs' hf =>
          have hkF := (keysMapFreeFields_iff fs).mp hk
          have hdF := (distinctKeysFields_iff fs).mp hd
          show Value.Struct n (sortFieldsE fs) = Value.Struct n (sortFieldsE fs')
          rw [sortFieldsE_eq, sortFieldsE_eq]
          exact congrArg _ (SameFields_map_eq fs fs' hf
            (fun p hp y hy => ih p hp y hy (hkF p hp) (hdF p hp)))
  | hTuple vs ih =>
      intro b h hk hd
      cases h with
      | tuple _ vs' hf =>
          have hkE := (keysMapFreeElems_iff vs).mp hk
          have hdE := (distinctKeysElems_iff vs).mp hd
          show Value.Tuple (sortElemsE vs) = Value.Tuple (sortElemsE vs')
          rw [sortElemsE_eq, sortElemsE_eq]
          exact congrArg _ (SameElems_map_eq vs vs' hf
            (fun w hw y hy => ih w hw y hy (hkE w hw) (hdE w hw)))
  | hList vs ih =>
      intro b h hk hd
      cases h with
      | list _ vs' hf =>
          have hkE := (keysMapFreeElems_iff vs).mp hk
          have hdE := (distinctKeysElems_iff vs).mp hd
          show Value.List (sortElemsE vs) = Value.List (sortElemsE vs')
          rw [sortElemsE_eq, sortElemsE_eq]
          exact congrArg _ (SameElems_map_eq vs vs' hf
            (fun w hw y hy => ih w hw y hy (hkE w hw) (hdE w hw)))
  | hSet vs ih =>
      intro b h hk hd
      cases h with
      | set _ vs' hf =>
          have hkE := (keysMapFreeElems_iff vs).mp hk
          have hdE := (distinctKeysElems_iff vs).mp hd
          show Value.Set (sortElemsE vs) = Value.Set (sortElemsE vs')
          rw [sortElemsE_eq, sortElemsE_eq]
          exact congrArg _ (SameElems_map_eq vs vs' hf
            (fun w hw y hy => ih w hw y hy (hkE w hw) (hdE w hw)))
  | hMap kvs ih =>
      intro b h hk hd
      cases h with
      | map _ mid kvs' hperm hentries =>
          have hkE := (keysMapFreeEntries_iff kvs).mp hk
          have hd' : (distinctKeysB kvs && distinctKeysEntries kvs) = true := hd
          rw [Bool.and_eq_true] at hd'
          have hdE := (distinctKeysEntries_iff kvs).mp hd'.2
          have hmidkeys : ∀ p ∈ mid, mapFree p.1 = true := fun p hp =>
            (hkE p (hperm.symm.subset hp)).1
          have hF2 : List.Forall₂ entryAligned mid kvs' :=
            SameEntries_forall2 mid kvs' hentries hmidkeys
          have hsort : List.Forall₂ entryAligned (sortEntries mid) (sortEntries kvs') :=
            insertionSort_forall2 hF2
          have huniq : sortEntries kvs = sortEntries mid :=
            sortEntries_eq_of_perm kvs mid hperm hd'.1
          rw [sortMapsE_Map, sortMapsE_Map, huniq]
          refine congrArg _ (map_sortMapsE_eq_of_forall2 hsort (fun p hp y hy => ?_))
          have hpkvs : p ∈ kvs :=
            hperm.symm.subset ((List.mem_insertionSort keyRel).mp hp)
          exact (ih p hpkvs).2 y hy (hkE p hpkvs).2 (hdE p hpkvs).2

/-- The map `{1: a, 1: b}` with two entries whose keys render equally. -/
def dupKeyMapA : Value := .Map [(.Term "1", .Term "a"), (.Term "1", .Term "b")]

/-- The same two entries as `dupKeyMapA` in the opposite order. -/
def dupKeyMapB : Value := .Map [(.Term "1", .Term "b"), (.Term "1", .Term "a")]

/-- C3 (counterexample): two maps holding the same multiset of key-value
pairs in different entry orders (and otherwise identical) can render
differently after canonicalization — with the tied keys `1` and `1`, the
stable sort keeps each input's own entry order. -/
theorem claim_C3_counterexample :
    SameModuloMapOrder dupKeyMapA dupKeyMapB ∧
      render (sort_maps dupKeyMapA) ≠ render (sort_maps dupKeyMapB) := by
  constructor
  · show SameModuloMapOrder
      (Value.Map [(Value.Term "1", Value.Term "a"), (Value.Term "1", Value.Term "b")])
      (Value.Map [(Value.Term "1", Value.Term "b"), (Value.Term "1", Value.Term "a")])
    refine .map _ [(Value.Term "1", Value.Term "b"), (Value.Term "1", Value.Term "a")] _
      (List.Perm.swap (Value.Term "1", Value.Term "b") (Value.Term "1", Value.Term "a") []) ?_
    exact .cons _ _ _ _ _ _ (.term _) (.term _)
      (.cons _ _ _ _ _ _ (.term _) (.term _) .nil)
  · simp only [sort_maps_eq_sortMapsE]
    decide

/-- C3 (amended): for any two `Value` trees that are identical except for
the order of entries inside `Map` nodes, canonicalizing and rendering both
yields identical output strings, provided no map key contains a nested
`Map` and no map holds two entries whose keys render equally. (The
spec's concrete `1`, `2`, `20` case satisfies both provisos.) -/
theorem claim_C3 (a b : Value) (h : SameModuloMapOrder a b)
    (hk : keysMapFree a = true) (hd : distinctKeys a = true) :
    render (sort_maps a) = render (sort_maps b) := by
  rw [sort_maps_eq_sortMapsE, sort_maps_eq_sortMapsE, sortMapsE_congr a b h hk hd]

/-- The entries of `flatMap120` with the first two entries swapped. -/
def flatMap120' : Value :=
  .Map [(.Term "1", .Term "true"), (.Term "2", .Term "true"), (.Term "20", .Term "true")]

/-- C3 (witness): the amended theorem applied to two insertion orders of
the concrete map with keys `1`, `2`, `20`. -/
theorem claim_C3_witness :
    SameModuloMapOrder flatMap120 flatMap120' ∧ keysMapFree flatMap120 = true ∧
      distinctKeys flatMap120 = true ∧
      render (sort_maps flatMap120) = render (sort_maps flatMap120') := by
  have hsmo : SameModuloMapOrder flatMap120 flatMap120' := by
    show SameModuloMapOrder
      (Value.Map [(Value.Term "2", Value.Term "true"), (Value.Term "1", Value.Term "true"),
        (Value.Term "20", Value.Term "true")])
      (Value.Map [(Value.Term "1", Value.Term "true"), (Value.Term "2", Value.Term "true"),
        (Value.Term "20", Value.Term "true")])
    refine .map _
      [(Value.Term "1", Value.Term "true"), (Value.Term "2", Value.Term "true"),
        (Value.Term "20", Value.Term "true")] _
      (List.Perm.swap (Value.Term "1", Value.Term "true") (Value.Term "2", Value.Term "true")
        [(Value.Term "20", Value.Term "true")]) ?_
    exact .cons _ _ _ _ _ _ (.term _) (.term _)
      (.cons _ _ _ _ _ _ (.term _) (.term _)
        (.cons _ _ _ _ _ _ (.term _) (.term _) .nil))
  exact ⟨hsmo, by decide, by decide, claim_C3 _ _ hsmo (by decide) (by decide)⟩

theorem pairwise_keyRel_of_same_key (k : String) :
    ∀ l : List (Value × Value), (∀ a ∈ l, render a.1 = k) → l.Pairwise keyRel
  | [], _ => List.Pairwise.nil
  | a :: rest, h => by
      rw [List.pairwise_cons]
      refine ⟨fun b hb => ?_, pairwise_keyRel_of_same_key k rest
        (fun b hb => h b (List.mem_cons_of_mem a hb))⟩
      show strLe (render a.1) (render b.1) = true
      rw [h a (by simp), h b (List.mem_cons_of_mem a hb)]
      exact strLe_refl k

/-- C8: the map sort is stable — for every entry list and every key class
(entries whose keys render as the same text `k`, i.e. whose keys compare
as equal under the key total order), the subsequence of that class in the
sorted entry list `sortEntries kvs` is exactly its subsequence in the
input, so tied entries keep their original relative order. -/
theorem claim_C8 (kvs : List (Value × Value)) (k : String) :
    (sortEntries kvs).filter (fun p => render p.1 == k) =
      kvs.filter (fun p => render p.1 == k) := by
  have hclass : ∀ a ∈ kvs.filter (fun p => render p.1 == k), render a.1 = k := by
    intro a ha
    have := (List.mem_filter.mp ha).2
    simpa using this
  have hpair : (kvs.filter (fun p => render p.1 == k)).Pairwise keyRel :=
    pairwise_keyRel_of_same_key k _ hclass
  have h1 : List.Sublist (kvs.filter (fun p => render p.1 == k)) (sortEntries kvs) :=
    List.sublist_insertionSort hpair (List.filter_sublist kvs)
  have h2 : List.Sublist (kvs.filter (fun p => render p.1 == k))
      ((sortEntries kvs).filter (fun p => render p.1 == k)) := by
    have h3 := List.Sublist.filter (fun p : Value × Value => render p.1 == k) h1
    rwa [List.filter_filter, show ∀ l : List (Value × Value),
      (l.filter fun p => (render p.1 == k) && (render p.1 == k)) =
        (l.filter fun p => render p.1 == k) from
      fun l => by simp [Bool.and_self]] at h3
  have h4 : ((sortEntries kvs).filter (fun p => render p.1 == k)).Perm
      (kvs.filter (fun p => render p.1 == k)) :=
    (List.perm_insertionSort keyRel kvs).filter _
  exact (h2.eq_of_length h4.length_eq.symm).symm

/-- C7: for every bare scalar value — a tree that is a single `Term` —
canonicalization is a no-op and the rendered output is exactly the term's
original debug text. -/
theorem claim_C7 (t : String) :
    sort_maps (.Term t) = .Term t ∧ render (.Term t) = t :=
  ⟨sort_maps_Term t, rfl⟩

/-- Whitespace characters insignificant to the debug grammar (§4.1). -/
def isWs (c : Char) : Bool := c == ' ' || c == '\n' || c == '\t' || c == '\r'

/-- Drops leading whitespace. -/
def skipWs : List Char → List Char
  | [] => []
  | c :: rest => if isWs c then skipWs rest else c :: rest

/-- Structural delimiters of the debug grammar. -/
def isDelim (c : Char) : Bool :=
  c == '{' || c == '}' || c == '[' || c == ']' || c == '(' || c == ')' ||
    c == ':' || c == ',' || c == '"'

/-- Characters that may appear in a bare scalar token or identifier. -/
def isTokenChar (c : Char) : Bool := !(isWs c || isDelim c)

/-- Takes the longest prefix of token characters. -/
def takeToken : List Char → List Char × List Char
  | [] => ([], [])
  | c :: rest =>
      if isTokenChar c then
        let (t, r) := takeToken rest
        (c :: t, r)
      else ([], c :: rest)

/-- Consumes the body of a quoted string after the opening quote, keeping
escaped quote and backslash pairs intact, up to the closing quote. -/
def takeStringLit : List Char → Except String (List Char × List Char)
  | [] => .error "unterminated string literal"
  | c :: rest =>
      if c == '"' then .ok ([], rest)
      else if c == '\\' then
        match rest with
        | [] => .error "unterminated escape sequence"
        | d :: rest2 =>
            match takeStringLit rest2 with
            | .ok (t, r) => .ok (c :: d :: t, r)
            | .error e => .error e
      else
        match takeStringLit rest with
        | .ok (t, r) => .ok (c :: t, r)
        | .error e => .error e

mutual

/-- Modelled from the spec: recursive-descent parser for one value of the
debug grammar of §4.1 (the external crate's parser), fueled so that the
recursion is structural. Returns the parsed value and the unconsumed
input, or a descriptive error. -/
def parseValue : Nat → List Char → Except String (Value × List Char)
  | 0, _ => .error "nesting too deep"
  | n + 1, cs0 =>
      match skipWs cs0 with
      | [] => .error "unexpected end of input"
      | '[' :: rest =>
          match parseElems n ']' rest with
          | .ok (vs, r) => .ok (.List vs, r)
          | .error e => .error e
      | '(' :: rest =>
          match parseElems n ')' rest with
          | .ok (vs, r) => .ok (.Tuple vs, r)
          | .error e => .error e
      | '{' :: rest => parseBrace n rest
      | '"' :: rest =>
          match takeStringLit rest with
          | .ok (t, r) => .ok (.Term (String.mk ('"' :: t ++ ['"'])), r)
          | .error e => .error e
      | c :: rest =>
          if isTokenChar c then
            let (tok, r) := takeToken (c :: rest)
            match skipWs r with
            | '{' :: r2 =>
                match parseFields n r2 with
                | .ok (fs, r3) => .ok (.Struct (String.mk tok) fs, r3)
                | .error e => .error e
            | '(' :: r2 =>
                match parseElems n ')' r2 with
                | .ok (vs, r3) => .ok (.Tuple vs, r3)
                | .error e => .error e
            | _ => .ok (.Term (String.mk tok), r)
          else .error ("unexpected character " ++ String.mk [c])

/-- Parses the comma-separated elements of a list or tuple up to the
closing delimiter. -/
def parseElems : Nat → Char → List Char → Except String (List Value × List Char)
  | 0, _, _ => .error "nesting too deep"
  | n + 1, close, cs0 =>
      match skipWs cs0 with
      | [] => .error "missing closing delimiter"
      | c :: rest =>
          if c == close then .ok ([], rest)
          else
            match parseValue n (c :: rest) with
            | .error e => .error e
            | .ok (v, r) =>
                match skipWs r with
                | [] => .error "missing closing delimiter"
                | d :: r2 =>
                    if d == close then .ok ([v], r2)
                    else if d == ',' then
                      match parseElems n close r2 with
                      | .ok (vs, r3) => .ok (v :: vs, r3)
                      | .error e => .error e
                    else .error "expected comma or closing delimiter"

/-- Parses the `name: value` fields of a struct body up to the closing
brace. -/
def parseFields : Nat → List Char → Except String (List (String × Value) × List Char)
  | 0, _ => .error "nesting too deep"
  | n + 1, cs0 =>
      match skipWs cs0 with
      | [] => .error "missing closing brace"
      | c :: rest =>
          if c == '}' then .ok ([], rest)
          else
            match takeToken (c :: rest) with
            | ([], _) => .error "expected field name"
            | (tok, r) =>
                match skipWs r with
                | ':' :: r2 =>
                    match parseValue n r2 with
                    | .error e => .error e
                    | .ok (v, r3) =>
                        match skipWs r3 with
                        | '}' :: r4 => .ok ([(String.mk tok, v)], r4)
                        | ',' :: r4 =>
                            match parseFields n r4 with
                            | .ok (fs, r5) => .ok ((String.mk tok, v) :: fs, r5)
                            | .error e => .error e
                        | _ => .error "expected comma or closing brace after field"
                | _ => .error "expected colon after field name"

/-- Parses the interior of an unnamed brace group — an empty or non-empty
set, or a map, disambiguated by the colon after the first value. -/
def parseBrace : Nat → List Char → Except String (Value × List Char)
  | 0, _ => .error "nesting too deep"
  | n + 1, cs0 =>
      match skipWs cs0 with
      | [] => .error "missing closing brace"
      | c :: rest =>
          if c == '}' then .ok (.Map [], rest)
          else
            match parseValue n (c :: rest) with
            | .error e => .error e
            | .ok (v, r) =>
                match skipWs r with
                | ':' :: r2 =>
                    match parseValue n r2 with
                    | .error e => .error e
                    | .ok (w, r3) =>
                        match parseEntriesRest n r3 with
                        | .ok (es, r4) => .ok (.Map ((v, w) :: es), r4)
                        | .error e => .error e
                | '}' :: r2 => .ok (.Set [v], r2)
                | ',' :: r2 =>
                    match parseSetRest n r2 with
                    | .ok (vs, r3) => .ok (.Set (v :: vs), r3)
                    | .error e => .error e
                | _ => .error "expected comma, colon or closing brace"

/-- Parses the remaining elements of a set after the first one. -/
def parseSetRest : Nat → List Char → Except String (List Value × List Char)
  | 0, _ => .error "nesting too deep"
  | n + 1, cs0 =>
      match skipWs cs0 with
      | [] => .error "missing closing brace"
      | c :: rest =>
          if c == '}' then .ok ([], rest)
          else
            match parseValue n (c :: rest) with
            | .error e => .error e
            | .ok (v, r) =>
                match skipWs r with
                | '}' :: r2 => .ok ([v], r2)
                | ',' :: r2 =>
                    match parseSetRest n r2 with
                    | .ok (vs, r3) => .ok (v :: vs, r3)
                    | .error e => .error e
                | _ => .error "expected comma or closing brace"

/-- Parses the remaining `key: value` entries of a map after the first
one. -/
def parseEntriesRest : Nat → List Char → Except String (List (Value × Value) × List Char)
  | 0, _ => .error "nesting too deep"
  | n + 1, cs0 =>
      match skipWs cs0 with
      | '}' :: r2 => .ok ([], r2)
      | ',' :: r2 =>
          match skipWs r2 with
          | '}' :: r3 => .ok ([], r3)
          | cs2 =>
              match parseValue n cs2 with
              | .error e => .error e
              | .ok (kv, r3) =>
                  match skipWs r3 with
                  | ':' :: r4 =>
                      match parseValue n r4 with
                      | .error e => .error e
                      | .ok (vv, r5) =>
                          match parseEntriesRest n r5 with
                          | .ok (es, r6) => .ok ((kv, vv) :: es, r6)
                          | .error e => .error e
                  | _ => .error "expected colon after map key"
      | _ => .error "expected comma or closing brace in map"

end

/-- Modelled from the spec: `parse` of the external crate (§4.1) — given a
string in the nested-structure debug grammar, produce a `Value` tree or
fail with a descriptive error; the whole input must be consumed up to
trailing whitespace. -/
def parse (s : String) : Except String Value :=
  match parseValue (2 * s.length + 4) s.toList with
  | .error e => .error e
  | .ok (v, rest) =>
      match skipWs rest with
      | [] => .ok v
      | _ => .error "unexpected trailing characters"

/-- The body of `impl Debug for SortedDebug` (`src/lib.rs` lines 90–103):
parse the wrapped value's debug text; on success sort the tree and render
it; on failure panic with `Failed to parse Debug output, err: ...`. The
panic is modelled as the error branch of `Except`. -/
def sortedDebugFmt (s : String) : Except String String :=
  match parse s with
  | .ok v => .ok (render (sort_maps v))
  | .error err => .error ("Failed to parse Debug output, err: " ++ err)

/-- Outcome of one `assert_eq_sorted!` invocation: normal return or a
panic carrying the panic message. -/
inductive AssertOutcome where
  | success : AssertOutcome
  | panicked : String → AssertOutcome
deriving DecidableEq

/-- The `assert_eq_sorted!` macro (`src/lib.rs` lines 53–77): compare the
two values; when equal, return; when unequal, panic with a message built
from the `Comparison` of the two `SortedDebug`-wrapped values — and if
formatting a `SortedDebug` itself panics on a parse failure, that panic
preempts the assertion message. -/
def assert_eq_sorted {α : Type} (beq : α → α → Bool) (dbg : α → String)
    (left right : α) : AssertOutcome :=
  if beq left right then .success
  else
    match sortedDebugFmt (dbg left), sortedDebugFmt (dbg right) with
    | .error e, _ => .panicked e
    | _, .error e => .panicked e
    | .ok a, .ok b =>
        .panicked ("assertion failed: `(left == right)`\n\n" ++ a ++ "\n" ++ b ++ "\n")

/-- C6: for every input string on which the parser fails, the
`SortedDebug` formatting detects the failure and aborts with a fatal panic
whose message carries the parse error's description; it never falls back
to a partial or wrong result. -/
theorem claim_C6 (s e : String) (h : parse s = .error e) :
    sortedDebugFmt s = .error ("Failed to parse Debug output, err: " ++ e) := by
  simp [sortedDebugFmt, h]

/-- C6 (witness): the unbalanced brace `\x7b` fails to parse and formatting
panics with the parse error's description. -/
theorem claim_C6_witness :
    parse "\x7b" = .error "missing closing brace" ∧
      sortedDebugFmt "\x7b" =
        .error ("Failed to parse Debug output, err: " ++ "missing closing brace") :=
  ⟨rfl, claim_C6 "\x7b" "missing closing brace" rfl⟩

/-- C9: `assert_eq_sorted` touches the debug-parse-sort pipeline only when
the two compared values are unequal — whenever `left == right` it returns
successfully, for every debug-rendering function whatsoever, so even a
non-conforming `Debug` representation of equal values can never cause a
parse-error panic. -/
theorem claim_C9 {α : Type} (beq : α → α → Bool) (dbg : α → String)
    (left right : α) (h : beq left right = true) :
    assert_eq_sorted beq dbg left right = .success := by
  simp [assert_eq_sorted, h]

/-- C9 (witness): equal numbers compared while their debug output is the
unparseable `\x7b` still assert successfully. -/
theorem claim_C9_witness :
    Nat.beq 7 7 = true ∧
      assert_eq_sorted Nat.beq (fun _ => "\x7b") 7 7 = .success :=
  ⟨rfl, claim_C9 Nat.beq (fun _ => "\x7b") 7 7 rfl⟩

mutual

/-- Structural size of a `Value` tree. -/
def size : Value → Nat
  | .Term _ => 1
  | .Struct _ fs => 1 + sizeFields fs
  | .Tuple vs => 1 + sizeElems vs
  | .List vs => 1 + sizeElems vs
  | .Set vs => 1 + sizeElems vs
  | .Map kvs => 1 + sizeEntries kvs

/-- `size` over struct fields. -/
def sizeFields : List (String × Value) → Nat
  | [] => 0
  | (_, v) :: rest => 1 + size v + sizeFields rest

/-- `size` over tuple, list or set elements. -/
def sizeElems : List Value → Nat
  | [] => 0
  | v :: rest => 1 + size v + sizeElems rest

/-- `size` over map entries. -/
def sizeEntries : List (Value × Value) → Nat
  | [] => 0
  | (k, v) :: rest => 1 + size k + size v + sizeEntries rest

end

mutual

/-- Fuel-bounded restatement of `sort_maps` that recurses exactly where
the source recurses — into struct field values, set, list and tuple
elements, and into the keys and values of a map's entries after those
entries have been sorted — returning `none` when the fuel runs out. -/
def sortMapsFuel : Nat → Value → Option Value
  | 0, _ => none
  | n + 1, v =>
      match v with
      | .Term t => some (.Term t)
      | .Struct m fs =>
          match sortFieldsFuel n fs with
          | some fs' => some (.Struct m fs')
          | none => none
      | .Set vs =>
          match sortElemsFuel n vs with
          | some vs' => some (.Set vs')
          | none => none
      | .Map kvs =>
          match sortEntriesFuel n (sortEntries kvs) with
          | some kvs' => some (.Map kvs')
          | none => none
      | .List vs =>
          match sortElemsFuel n vs with
          | some vs' => some (.List vs')
          | none => none
      | .Tuple vs =>
          match sortElemsFuel n vs with
          | some vs' => some (.Tuple vs')
          | none => none

/-- `sortMapsFuel` over struct fields. -/
def sortFieldsFuel : Nat → List (String × Value) → Option (List (String × Value))
  | _, [] => some []
  | 0, _ :: _ => none
  | n + 1, (m, v) :: rest =>
      match sortMapsFuel n v, sortFieldsFuel n rest with
      | some v', some rest' => some ((m, v') :: rest')
      | _, _ => none

/-- `sortMapsFuel` over tuple, list or set elements. -/
def sortElemsFuel : Nat → List Value → Option (List Value)
  | _, [] => some []
  | 0, _ :: _ => none
  | n + 1, v :: rest =>
      match sortMapsFuel n v, sortElemsFuel n rest with
      | some v', some rest' => some (v' :: rest')
      | _, _ => none

/-- `sortMapsFuel` over map entries, recursing into keys and values. -/
def sortEntriesFuel : Nat → List (Value × Value) → Option (List (Value × Value))
  | _, [] => some []
  | 0, _ :: _ => none
  | n + 1, (k, v) :: rest =>
      match sortMapsFuel n k, sortMapsFuel n v, sortEntriesFuel n rest with
      | some k', some v', some rest' => some ((k', v') :: rest')
      | _, _, _ => none

end

theorem size_pos (v : Value) : 1 ≤ size v := by
  cases v <;> simp [size]

theorem sizeEntries_eq_sum (l : List (Value × Value)) :
    sizeEntries l = (l.map (fun p => 1 + size p.1 + size p.2)).sum := by
  induction l with
  | nil => rfl
  | cons p rest ih => obtain ⟨k, v⟩ := p; simp [sizeEntries, ih]

theorem sizeEntries_perm {l l' : List (Value × Value)} (h : l.Perm l') :
    sizeEntries l = sizeEntries l' := by
  rw [sizeEntries_eq_sum, sizeEntries_eq_sum]
  exact (h.map _).sum_eq

theorem sortMapsFuel_sound : ∀ n : Nat,
    (∀ v, size v ≤ n → sortMapsFuel n v = some (sortMapsE v)) ∧
    (∀ fs, sizeFields fs ≤ n → sortFieldsFuel n fs = some (sortFieldsE fs)) ∧
    (∀ vs, sizeElems vs ≤ n → sortElemsFuel n vs = some (sortElemsE vs)) ∧
    (∀ kvs, sizeEntries kvs ≤ n →
      sortEntriesFuel n kvs =
        some (kvs.map (fun p => (sortMapsE p.1, sortMapsE p.2)))) := by
  intro n
  induction n using Nat.strong_induction_on with
  | _ n ih =>
    match n with
    | 0 =>
        refine ⟨fun v hv => absurd (Nat.le_trans (size_pos v) hv) (by omega), ?_, ?_, ?_⟩
        · intro fs hfs
          cases fs with
          | nil => rfl
          | cons p rest => obtain ⟨a, b⟩ := p; simp [sizeFields] at hfs
        · intro vs hvs
          cases vs with
          | nil => rfl
          | cons v rest => simp [sizeElems] at hvs
        · intro kvs hkvs
          cases kvs with
          | nil => rfl
          | cons p rest =>
              obtain ⟨k, v⟩ := p
              simp [sizeEntries] at hkvs
    | m + 1 =>
        obtain ⟨ihV, ihF, ihE, ihKV⟩ := ih m (Nat.lt_succ_self m)
        refine ⟨?_, ?_, ?_, ?_⟩
        · intro v hv
          cases v with
          | Term t => rfl
          | Struct nm fs =>
              have h1 : sizeFields fs ≤ m := by simp [size] at hv; omega
              show (match sortFieldsFuel m fs with
                | some fs' => some (Value.Struct nm fs')
                | none => none) = _
              rw [ihF fs h1]
              rfl
          | Tuple vs =>
              have h1 : sizeElems vs ≤ m := by simp [size] at hv; omega
              show (match sortElemsFuel m vs with
                | some vs' => some (Value.Tuple vs')
                | none => none) = _
              rw [ihE vs h1]
              rfl
          | List vs =>
              have h1 : sizeElems vs ≤ m := by simp [size] at hv; omega
              show (match sortElemsFuel m vs with
                | some vs' => some (Value.List vs')
                | none => none) = _
              rw [ihE vs h1]
              rfl
          | Set vs =>
              have h1 : sizeElems vs ≤ m := by simp [size] at hv; omega
              show (match sortElemsFuel m vs with
                | some vs' => some (Value.Set vs')
                | none => none) = _
              rw [ihE vs h1]
              rfl
          | Map kvs =>
              have h1 : sizeEntries (sortEntries kvs) ≤ m := by
                rw [show sizeEntries (sortEntries kvs) = sizeEntries kvs from
                  sizeEntries_perm (List.perm_insertionSort keyRel kvs)]
                simp [size] at hv
                omega
              show (match sortEntriesFuel m (sortEntries kvs) with
                | some kvs' => some (Value.Map kvs')
                | none => none) = _
              rw [ihKV (sortEntries kvs) h1, sortMapsE_Map]
        · intro fs hfs
          cases fs with
          | nil => rfl
          | cons p rest =>
              obtain ⟨nm, v⟩ := p
              simp only [sizeFields] at hfs
              show (match sortMapsFuel m v, sortFieldsFuel m rest with
                | some v', some rest' => some ((nm, v') :: rest')
                | _, _ => none) = _
              rw [ihV v (by omega), ihF rest (by omega)]
              rfl
        · intro vs hvs
          cases vs with
          | nil => rfl
          | cons v rest =>
              simp only [sizeElems] at hvs
              show (match sortMapsFuel m v, sortElemsFuel m rest with
                | some v', some rest' => some (v' :: rest')
                | _, _ => none) = _
              rw [ihV v (by omega), ihE rest (by omega)]
              rfl
        · intro kvs hkvs
          cases kvs with
          | nil => rfl
          | cons p rest =>
              obtain ⟨k, v⟩ := p
              simp only [sizeEntries] at hkvs
              show (match sortMapsFuel m k, sortMapsFuel m v, sortEntriesFuel m rest with
                | some k', some v', some rest' => some ((k', v') :: rest')
                | _, _, _ => none) = _
              rw [ihV k (by omega), ihV v (by omega), ihKV rest (by omega)]
              rfl

/-- C10: the canonicalizer terminates on every finite `Value` tree —
`sort_maps` recurses only into strict subtrees of its argument (struct
field values, set, list and tuple elements, and the sorted map entries'
keys and values), so the fuel-bounded restatement that mirrors its
recursion succeeds with fuel equal to the tree's size and computes
`sort_maps`. -/
theorem claim_C10 (v : Value) (n : Nat) (h : size v ≤ n) :
    sortMapsFuel n v = some (sort_maps v) := by
  rw [sort_maps_eq_sortMapsE]
  exact (sortMapsFuel_sound n).1 v h

/-- C10 (witness): the fueled canonicalizer at the nested-map-key example
with fuel equal to an upper bound of its size. -/
theorem claim_C10_witness :
    size nestedKeyMap ≤ 25 ∧ sortMapsFuel 25 nestedKeyMap = some (sort_maps nestedKeyMap) :=
  ⟨by decide, claim_C10 nestedKeyMap 25 (by decide)⟩
